import Mathlib

/-! # terraform_redundant_depends_on

A shallow embedding of `rules/terraform_redundant_depends_on.go`:
`extractResourceReferences` and `TerraformRedundantDependsOnRule.Check`.

The rule talks to its host through `tflint.Runner`.  The runner is embedded as
a record of state-passing functions over an arbitrary host state, and every
call `Check` makes is written to a call log, so that statements about which
calls are made, in which order, and with which outcome can be expressed.
-/

namespace Rules

/-! ## Data model (hcl / hclext types used by the rule) -/

/-- Go `error` values handed back by the host. -/
abbrev Error := String

/-- One step of an `hcl.Traversal`.  `TraverseRoot` and `TraverseAttr` carry a
`Name`; `TraverseIndex` carries a key (kept here in its textual form). -/
inductive Traverser where
  | TraverseRoot (Name : String)
  | TraverseAttr (Name : String)
  | TraverseIndex (Key : String)
  deriving DecidableEq, Repr

/-- An `hcl.Traversal` is a slice of traversers. -/
abbrev Traversal := List Traverser

/-- An `hcl.Expression`, seen through the only method the rule calls on it
itself: `Variables()`.  Everything else about an expression is the host's
business (see `Runner.EvaluateExpr`). -/
structure Expression where
  Variables : List Traversal
  deriving DecidableEq, Repr

/-- An `hcl.Pos`. -/
structure Pos where
  Line : Nat
  Column : Nat
  Byte : Nat
  deriving DecidableEq, Repr

/-- An `hcl.Range`. -/
structure Range where
  Filename : String
  Start : Pos
  End : Pos
  deriving DecidableEq, Repr

/-- An `hclext.Attribute` (the fields the rule reads). -/
structure Attribute where
  Expr : Expression
  Range : Range
  deriving DecidableEq, Repr

/-- The body of a resource block: `Body.Attributes`, a Go map from attribute
name to attribute.  It is kept as an association list; the order of the list
is the order in which this run of `range` visits the map, and indexing the map
by a key is `List.lookup`.  A Go map holds one entry per key; the statements
below hold for any list and do not need that. -/
structure Body where
  Attributes : List (String × Attribute)
  deriving DecidableEq, Repr

/-- An `hclext.Block` of type `resource`.  Both schemas the rule uses declare
`LabelNames: {"type", "name"}`, so a block always carries exactly two labels:
`Labels.1` is `Labels[0]` (the kind) and `Labels.2` is `Labels[1]` (the
name). -/
structure Block where
  Labels : String × String
  Body : Body
  deriving DecidableEq, Repr

/-- An `hclext.BodyContent` as returned by `GetModuleContent` and
`GetResourceContent`: the list of resource blocks. -/
structure BodyContent where
  Blocks : List Block
  deriving DecidableEq, Repr

/-- A module path (`addrs.Module`, a slice of module names). -/
abbrev Path := List String

/-- The method `IsRoot` of a module path: the path has no element. -/
def Path.IsRoot (p : Path) : Bool := p.isEmpty

/-! ## extractResourceReferences -/

/-- The inner loop of `extractResourceReferences` (lines 138-146): the names of
the root and attribute steps of a traversal, appended in order; any other step
falls through the type switch. -/
def traversalParts (traversal : Traversal) : List String :=
  traversal.foldl
    (fun parts t =>
      match t with
      | .TraverseRoot n => parts ++ [n]
      | .TraverseAttr n => parts ++ [n]
      | .TraverseIndex _ => parts)
    []

/-- The body of the outer loop of `extractResourceReferences` (lines 137-153):
what one traversal adds to `refs`. -/
def appendReference (refs : List String) (traversal : Traversal) : List String :=
  if traversal.length ≥ 2 then
    match traversalParts traversal with
    | p0 :: p1 :: _ => refs ++ [p0 ++ "." ++ p1]
    | _ => refs
  else refs

/-- The function `extractResourceReferences` (lines 132-157). -/
def extractResourceReferences (expr : Expression) : List String :=
  expr.Variables.foldl appendReference []

/-! ## The reference definition of section 4.1 of the specification -/

/-- The label of a path segment as the specification names it: "root
identifier and first attribute/index label". -/
def segmentLabel : Traverser → String
  | .TraverseRoot n => n
  | .TraverseAttr n => n
  | .TraverseIndex k => k

/-- The specification's rule for one traversal: it qualifies only with at
least two segments, and the reference is the join of the first two segments
with a dot. -/
def specReference : Traversal → Option String
  | s0 :: s1 :: _ => some (segmentLabel s0 ++ "." ++ segmentLabel s1)
  | _ => none

/-- The specification's reference extractor: one reference per qualifying
traversal, in traversal order. -/
def specExtractReferences (expr : Expression) : List String :=
  expr.Variables.filterMap specReference

/-! ## The runner and the call log -/

/-- The arguments of one `EmitIssue` call: the two strings given to
`fmt.Sprintf` and the range. -/
structure Issue where
  dependsOnTarget : String
  attrName : String
  range : Range
  deriving DecidableEq, Repr

/-- A lower-case hexadecimal digit. -/
def hexDigit (n : Nat) : Char :=
  "0123456789abcdef".data.getD n '0'

/-- The verb `%q` of `fmt.Sprintf` (`strconv.Quote`) on one character: the
double quote and the backslash get a backslash, the control characters with a
short escape use it, any other ASCII control character is written `\x` and two
hexadecimal digits, and every other character is written as it is. -/
def quoteChar (c : Char) : List Char :=
  if c = '"' then ['\\', '"']
  else if c = '\\' then ['\\', '\\']
  else if c.toNat = 7 then ['\\', 'a']
  else if c.toNat = 8 then ['\\', 'b']
  else if c.toNat = 12 then ['\\', 'f']
  else if c = '\n' then ['\\', 'n']
  else if c = '\r' then ['\\', 'r']
  else if c = '\t' then ['\\', 't']
  else if c.toNat = 11 then ['\\', 'v']
  else if c.toNat < 32 ∨ c.toNat = 127 then
    ['\\', 'x', hexDigit (c.toNat / 16), hexDigit (c.toNat % 16)]
  else [c]

/-- The verb `%q` of `fmt.Sprintf`: the string between double quotes, each
character written by `quoteChar`.  This is `strconv.Quote` on ASCII text, which
covers every attribute name (an identifier) and every reference built by
`extractResourceReferences` from identifiers; a character above ASCII is
written as it is, where Go writes a `\u` escape when the character is not
printable. -/
def quote (s : String) : String :=
  "\"" ++ String.mk (s.data.flatMap quoteChar) ++ "\""

/-- The message built at line 115. -/
def Issue.message (i : Issue) : String :=
  "depends_on is redundant because " ++ quote i.dependsOnTarget ++
    " is already referenced in " ++ quote i.attrName ++ " attribute"

/-- The methods of `tflint.Runner` that `Check` calls.  Each takes the host
state and returns its answer with the next host state.  The schema and option
arguments are constants in `Check` and are left out. -/
structure Runner (σ : Type) where
  GetModulePath : σ → Except Error Path × σ
  GetModuleContent : σ → Except Error BodyContent × σ
  EvaluateExpr : Expression → σ → Except Error (List String) × σ
  GetResourceContent : String → σ → Except Error BodyContent × σ
  EmitIssue : String → Range → σ → Option Error × σ

/-- One entry of the call log: the method called, its arguments, and the error
it returned (`none` for `nil`). -/
inductive Call where
  | GetModulePath (err : Option Error)
  | GetModuleContent (err : Option Error)
  | EvaluateExpr (expr : Expression) (err : Option Error)
  | GetResourceContent (name : String) (err : Option Error)
  | EmitIssue (issue : Issue) (err : Option Error)
  deriving DecidableEq, Repr

/-- The error a logged call returned. -/
def Call.err : Call → Option Error
  | .GetModulePath e => e
  | .GetModuleContent e => e
  | .EvaluateExpr _ e => e
  | .GetResourceContent _ e => e
  | .EmitIssue _ e => e

/-- Whether a logged call is an `EvaluateExpr` call. -/
def Call.isEvaluateExpr : Call → Bool
  | .EvaluateExpr _ _ => true
  | _ => false

/-- Whether a logged call is an `EmitIssue` call. -/
def Call.isEmitIssue : Call → Bool
  | .EmitIssue _ _ => true
  | _ => false

/-- The issue of an `EmitIssue` entry. -/
def Call.issue? : Call → Option Issue
  | .EmitIssue i _ => some i
  | _ => none

/-- The findings of a call log, in emission order. -/
def emitted (calls : List Call) : List Issue :=
  calls.filterMap Call.issue?

/-- What a piece of `Check` leaves behind: `val` is `.error e` when it made
`Check` return `e`, and `.ok a` when control goes on with `a`; `calls` are the
runner calls it made, oldest first; `state` is the host state afterwards. -/
structure Outcome (σ α : Type) where
  val : Except Error α
  calls : List Call
  state : σ

/-- A piece of `Check`: a function of the host state. -/
def Prog (σ α : Type) := σ → Outcome σ α

/-- Go on with `a`, calling nothing. -/
def Prog.pure {σ α : Type} (a : α) : Prog σ α :=
  fun s => ⟨.ok a, [], s⟩

/-- Sequencing: run `m`; if it returned an error from `Check`, stop there,
otherwise run `f` on its value from the state `m` left. -/
def Prog.bind {σ α β : Type} (m : Prog σ α) (f : α → Prog σ β) : Prog σ β :=
  fun s =>
    match m s with
    | ⟨.error e, cs, s1⟩ => ⟨.error e, cs, s1⟩
    | ⟨.ok a, cs, s1⟩ =>
      match f a s1 with
      | ⟨v, cs2, s2⟩ => ⟨v, cs ++ cs2, s2⟩

/-- A Go `for _, x := range xs` loop whose body may `continue` (go on with
`()`) or `return err`. -/
def forEach {σ α : Type} : List α → (α → Prog σ Unit) → Prog σ Unit
  | [], _ => Prog.pure ()
  | x :: xs, body => Prog.bind (body x) (fun _ => forEach xs body)

/-- The pattern `x, err := call(); if err != nil { return err }`. -/
def callOrReturn {σ α : Type} (call : σ → Except Error α × σ)
    (log : Option Error → Call) : Prog σ α :=
  fun s =>
    match call s with
    | (.error e, s1) => ⟨.error e, [log (some e)], s1⟩
    | (.ok a, s1) => ⟨.ok a, [log none], s1⟩

/-- Lines 113-120: `err := runner.EmitIssue(...); if err != nil { return err }`. -/
def emitIssue {σ : Type} (r : Runner σ) (i : Issue) : Prog σ Unit :=
  fun s =>
    match r.EmitIssue i.message i.range s with
    | (some e, s1) => ⟨.error e, [Call.EmitIssue i (some e)], s1⟩
    | (none, s1) => ⟨.ok (), [Call.EmitIssue i none], s1⟩

/-- Lines 77-81: the dependency list.  `EvaluateExpr` is called; its error is
not returned but replaced by the manual extraction. -/
def evalDependsOn {σ : Type} (r : Runner σ) (expr : Expression) : Prog σ (List String) :=
  fun s =>
    match r.EvaluateExpr expr s with
    | (.ok dependsOn, s1) => ⟨.ok dependsOn, [Call.EvaluateExpr expr none], s1⟩
    | (.error e, s1) =>
      ⟨.ok (extractResourceReferences expr), [Call.EvaluateExpr expr (some e)], s1⟩

/-! ## Check -/

/-- Lines 110-123: the two innermost loops, for one attribute with extracted
references `refs`. -/
def matchTargets {σ : Type} (r : Runner σ) (dependsOn : List String) (rng : Range)
    (attrName : String) (refs : List String) : Prog σ Unit :=
  forEach dependsOn fun dependsOnTarget =>
    forEach refs fun ref =>
      if ref = dependsOnTarget then emitIssue r ⟨dependsOnTarget, attrName, rng⟩
      else Prog.pure ()

/-- Lines 101-124: the loop over the attributes of one re-fetched block. -/
def scanAttributes {σ : Type} (r : Runner σ) (dependsOn : List String) (rng : Range)
    (attrs : List (String × Attribute)) : Prog σ Unit :=
  forEach attrs fun entry =>
    if entry.1 = "depends_on" then Prog.pure ()
    else matchTargets r dependsOn rng entry.1 (extractResourceReferences entry.2.Expr)

/-- Lines 95-125: the loop over the re-fetched blocks, with the label test of
line 96. -/
def scanBlocks {σ : Type} (r : Runner σ) (resource : Block) (dependsOn : List String)
    (rng : Range) (blocks : List Block) : Prog σ Unit :=
  forEach blocks fun res =>
    if res.Labels.1 ≠ resource.Labels.2 then Prog.pure ()
    else scanAttributes r dependsOn rng res.Body.Attributes

/-- Lines 83-125: what is done with the dependency list of one resource: skip
the resource when the list is empty, otherwise re-fetch the blocks of its kind
and scan them. -/
def crossReference {σ : Type} (r : Runner σ) (resource : Block) (rng : Range)
    (dependsOn : List String) : Prog σ Unit :=
  if dependsOn.length = 0 then Prog.pure ()
  else
    Prog.bind
      (callOrReturn (r.GetResourceContent resource.Labels.1)
        (Call.GetResourceContent resource.Labels.1))
      fun fullBody => scanBlocks r resource dependsOn rng fullBody.Blocks

/-- Lines 71-125: the body of the loop over the resource blocks. -/
def checkResource {σ : Type} (r : Runner σ) (resource : Block) : Prog σ Unit :=
  match resource.Body.Attributes.lookup "depends_on" with
  | none => Prog.pure ()
  | some dependsOnAttr =>
    Prog.bind (evalDependsOn r dependsOnAttr.Expr)
      (crossReference r resource dependsOnAttr.Range)

/-- The method `TerraformRedundantDependsOnRule.Check` (lines 42-129). -/
def Check {σ : Type} (r : Runner σ) : Prog σ Unit :=
  Prog.bind (callOrReturn r.GetModulePath Call.GetModulePath) fun path =>
    if !path.IsRoot then Prog.pure ()
    else
      Prog.bind (callOrReturn r.GetModuleContent Call.GetModuleContent) fun body =>
        forEach body.Blocks (checkResource r)

/-! ## A host over a fixed document -/

/-- A host serving one parsed document, as the plugin SDK does: every block
has the labels kind and name; `GetModuleContent` with the schema of line 52
gives every resource block with its `depends_on` attribute only;
`GetResourceContent K` gives the resource blocks of kind `K` with all their
attributes.  The host state counts the issues accepted so far, and
`EmitIssue` fails once `capacity` issues have been accepted. -/
def docRunner (path : Path) (doc : List Block)
    (eval : Expression → Except Error (List String)) (capacity : Nat) : Runner Nat where
  GetModulePath := fun s => (.ok path, s)
  GetModuleContent := fun s =>
    (.ok ⟨doc.map fun b =>
      ⟨b.Labels, ⟨b.Body.Attributes.filter fun entry => entry.1 = "depends_on"⟩⟩⟩, s)
  EvaluateExpr := fun expr s => (eval expr, s)
  GetResourceContent := fun name s => (.ok ⟨doc.filter fun b => b.Labels.1 = name⟩, s)
  EmitIssue := fun _ _ s => if s < capacity then (none, s + 1) else (some "emit failed", s)

/-- The reference `kind.name.attr` as a traversal. -/
def ref3 (kind name attr : String) : Traversal :=
  [.TraverseRoot kind, .TraverseAttr name, .TraverseAttr attr]

/-- The reference `kind.name` as a traversal. -/
def ref2 (kind name : String) : Traversal :=
  [.TraverseRoot kind, .TraverseAttr name]

/-- A source range on one line of `main.tf`. -/
def lineRange (line : Nat) : Range :=
  ⟨"main.tf", ⟨line, 3, 0⟩, ⟨line, 40, 0⟩⟩

/-- An evaluator that always fails, as the host does on a list of resource
references (their values are unknown before apply). -/
def evalUnknown : Expression → Except Error (List String) :=
  fun _ => .error "unknown value"

/-- The example of the specification:
`resource "aws_instance" "web"` with `depends_on = [aws_security_group.sg]`
and `vpc_security_group_ids = [aws_security_group.sg.id]`. -/
def exampleWeb : Block :=
  ⟨("aws_instance", "web"),
   ⟨[("depends_on", ⟨⟨[ref2 "aws_security_group" "sg"]⟩, lineRange 2⟩),
     ("vpc_security_group_ids", ⟨⟨[ref3 "aws_security_group" "sg" "id"]⟩, lineRange 3⟩)]⟩⟩

/-! ## Reading the two loops of extractResourceReferences as list functions -/

/-- The name a traverser contributes to `parts`: root and attribute steps
contribute their name, an index step contributes nothing. -/
def Traverser.name? : Traverser → Option String
  | .TraverseRoot n => some n
  | .TraverseAttr n => some n
  | .TraverseIndex _ => none

/-- Whether a traverser is a root or an attribute step. -/
def Traverser.isNamed : Traverser → Bool
  | .TraverseIndex _ => false
  | _ => true

/-- The reference one traversal yields, read off the loop body: the traversal
needs at least two segments and at least two named segments, and the first two
names are joined by a dot. -/
def namedReference (t : Traversal) : Option String :=
  if 2 ≤ t.length then
    match t.filterMap Traverser.name? with
    | p0 :: p1 :: _ => some (p0 ++ "." ++ p1)
    | _ => none
  else none

/-- Whether the first two segments of a traversal, when it has two, are root
or attribute steps. -/
def firstTwoNamed : Traversal → Bool
  | s0 :: s1 :: _ => s0.isNamed && s1.isNamed
  | _ => true

/-! ## Example documents -/

/-- The traversal `aws_instance[0]`: a root step and an index step. -/
def indexedTraversal : Traversal :=
  [.TraverseRoot "aws_instance", .TraverseIndex "0"]

/-- A resource whose name equals its kind, with one attribute that mentions
the dependency target twice:
`resource "aws_instance" "aws_instance"` with
`depends_on = [aws_security_group.sg]` and
`vpc_security_group_ids = [aws_security_group.sg.id, aws_security_group.sg.arn]`. -/
def exampleTwice : Block :=
  ⟨("aws_instance", "aws_instance"),
   ⟨[("depends_on", ⟨⟨[ref2 "aws_security_group" "sg"]⟩, lineRange 2⟩),
     ("vpc_security_group_ids",
       ⟨⟨[ref3 "aws_security_group" "sg" "id", ref3 "aws_security_group" "sg" "arn"]⟩,
         lineRange 3⟩)]⟩⟩

/-- A resource whose name equals its kind and whose only attribute is
`depends_on = [aws_security_group.sg]`. -/
def exampleBare : Block :=
  ⟨("aws_instance", "aws_instance"),
   ⟨[("depends_on", ⟨⟨[ref2 "aws_security_group" "sg"]⟩, lineRange 2⟩)]⟩⟩

/-- A second resource of the same kind, without `depends_on`:
`resource "aws_instance" "web"` with
`vpc_security_group_ids = [aws_security_group.sg.id]`. -/
def exampleOther : Block :=
  ⟨("aws_instance", "web"),
   ⟨[("vpc_security_group_ids",
       ⟨⟨[ref3 "aws_security_group" "sg" "id"]⟩, lineRange 7⟩)]⟩⟩

/-! ## Removing depends_on from the re-fetched attributes -/

/-- A re-fetched body with the `depends_on` entry deleted from the attribute
map of every block. -/
def stripDependsOn (body : BodyContent) : BodyContent :=
  ⟨body.Blocks.map fun b =>
    ⟨b.Labels, ⟨b.Body.Attributes.filter fun entry => !decide (entry.1 = "depends_on")⟩⟩⟩

/-- The host `r`, except that `GetResourceContent` answers with the
`depends_on` entries deleted. -/
def withoutDependsOn {σ : Type} (r : Runner σ) : Runner σ where
  GetModulePath := r.GetModulePath
  GetModuleContent := r.GetModuleContent
  EvaluateExpr := r.EvaluateExpr
  GetResourceContent := fun name s =>
    match r.GetResourceContent name s with
    | (.ok body, s1) => (.ok (stripDependsOn body), s1)
    | (.error e, s1) => (.error e, s1)
  EmitIssue := r.EmitIssue

/-- An evaluator that decodes the example's `depends_on` list literally. -/
def evalLiteral : Expression → Except Error (List String) :=
  fun _ => .ok ["aws_security_group.sg"]

/-- A logged call that failed and whose error `Check` does not absorb: any
call but `EvaluateExpr` that returned an error. -/
def Call.failed (c : Call) : Bool :=
  !c.isEvaluateExpr && c.err.isSome

/-- The fail-fast shape of an outcome: when control goes on, no logged call
failed; when an error is returned, it is the error of the last logged call,
that call is not an `EvaluateExpr` call, and no call before it failed. -/
def FailFast {σ α : Type} (o : Outcome σ α) : Prop :=
  (∀ a, o.val = .ok a → ∀ c ∈ o.calls, Call.failed c = false) ∧
  (∀ e, o.val = .error e →
    ∃ pre c, o.calls = pre ++ [c] ∧ (∀ d ∈ pre, Call.failed d = false) ∧
      Call.isEvaluateExpr c = false ∧ Call.err c = some e)

/-! ## Lemmas on extractResourceReferences -/

theorem traversalParts_foldl (t : Traversal) (acc : List String) :
    t.foldl
      (fun parts x =>
        match x with
        | .TraverseRoot n => parts ++ [n]
        | .TraverseAttr n => parts ++ [n]
        | .TraverseIndex _ => parts)
      acc = acc ++ t.filterMap Traverser.name? := by
  induction t generalizing acc with
  | nil => simp
  | cons x xs ih =>
    cases x <;> simp [List.foldl_cons, ih, Traverser.name?, List.filterMap_cons]

theorem traversalParts_eq (t : Traversal) :
    traversalParts t = t.filterMap Traverser.name? := by
  simpa [traversalParts] using traversalParts_foldl t []

theorem appendReference_eq (refs : List String) (t : Traversal) :
    appendReference refs t = refs ++ (namedReference t).toList := by
  unfold appendReference namedReference
  rw [traversalParts_eq]
  by_cases h : 2 ≤ t.length
  · simp only [ge_iff_le, h, if_true]
    rcases t.filterMap Traverser.name? with _ | ⟨p0, _ | ⟨p1, rest⟩⟩ <;> simp
  · simp [h]

theorem extract_foldl (ts : List Traversal) (acc : List String) :
    ts.foldl appendReference acc = acc ++ ts.filterMap namedReference := by
  induction ts generalizing acc with
  | nil => simp
  | cons t ts ih =>
    rw [List.foldl_cons, ih, appendReference_eq]
    cases h : namedReference t <;> simp [List.filterMap_cons, h]

theorem extract_eq_filterMap (e : Expression) :
    extractResourceReferences e = e.Variables.filterMap namedReference := by
  simpa [extractResourceReferences] using extract_foldl e.Variables []

theorem namedReference_of_firstTwoNamed (t : Traversal) (h : firstTwoNamed t = true) :
    namedReference t = specReference t := by
  rcases t with _ | ⟨s0, _ | ⟨s1, rest⟩⟩
  · simp [namedReference, specReference]
  · simp [namedReference, specReference]
  · cases s0 <;> cases s1 <;>
      simp_all [firstTwoNamed, Traverser.isNamed, namedReference, specReference,
        Traverser.name?, segmentLabel, List.filterMap_cons]

theorem firstTwoNamed_of_all_named (t : Traversal)
    (h : ∀ x ∈ t, Traverser.isNamed x = true) : firstTwoNamed t = true := by
  rcases t with _ | ⟨s0, _ | ⟨s1, rest⟩⟩
  · rfl
  · rfl
  · simp [firstTwoNamed, h s0 (by simp), h s1 (by simp)]

theorem extract_eq_spec_of_firstTwoNamed (e : Expression)
    (h : ∀ t ∈ e.Variables, firstTwoNamed t = true) :
    extractResourceReferences e = specExtractReferences e := by
  rw [extract_eq_filterMap, specExtractReferences]
  apply List.filterMap_congr
  intro t ht
  exact namedReference_of_firstTwoNamed t (h t ht)

theorem mem_extract_of_root_attr (e : Expression) (a b : String) (rest : Traversal)
    (h : (Traverser.TraverseRoot a :: Traverser.TraverseAttr b :: rest) ∈ e.Variables) :
    (a ++ "." ++ b) ∈ extractResourceReferences e := by
  rw [extract_eq_filterMap, List.mem_filterMap]
  refine ⟨_, h, ?_⟩
  simp [namedReference, Traverser.name?, List.filterMap_cons]

/-! ## Lemmas on sequencing and loops -/

section ProgLemmas

variable {σ α β : Type}

theorem bind_error {m : Prog σ α} {f : α → Prog σ β} {s : σ} {e : Error}
    (h : (m s).val = .error e) :
    Prog.bind m f s = ⟨.error e, (m s).calls, (m s).state⟩ := by
  unfold Prog.bind
  rcases hm : m s with ⟨v, cs, s1⟩
  rw [hm] at h
  simp only at h
  subst h
  rfl

theorem bind_ok {m : Prog σ α} {f : α → Prog σ β} {s : σ} {a : α}
    (h : (m s).val = .ok a) :
    Prog.bind m f s =
      ⟨(f a (m s).state).val, (m s).calls ++ (f a (m s).state).calls,
        (f a (m s).state).state⟩ := by
  unfold Prog.bind
  rcases hm : m s with ⟨v, cs, s1⟩
  rw [hm] at h
  simp only at h
  subst h
  rfl

theorem pure_bind (a : α) (f : α → Prog σ β) : Prog.bind (Prog.pure a) f = f a := by
  funext s
  rw [bind_ok (a := a) rfl]
  simp [Prog.pure]

theorem forEach_cons (x : α) (xs : List α) (body : α → Prog σ Unit) :
    forEach (x :: xs) body = Prog.bind (body x) (fun _ => forEach xs body) := rfl

theorem forEach_congr {xs : List α} {f g : α → Prog σ Unit}
    (h : ∀ x ∈ xs, f x = g x) : forEach xs f = forEach xs g := by
  induction xs with
  | nil => rfl
  | cons x xs ih =>
    rw [forEach_cons, forEach_cons, h x (by simp),
      ih (fun y hy => h y (List.mem_cons_of_mem _ hy))]

theorem forEach_filter (p : α → Bool) (xs : List α) (body : α → Prog σ Unit)
    (h : ∀ x ∈ xs, p x = false → body x = Prog.pure ()) :
    forEach (xs.filter p) body = forEach xs body := by
  induction xs with
  | nil => rfl
  | cons x xs ih =>
    have ih1 := ih (fun y hy => h y (List.mem_cons_of_mem _ hy))
    cases hp : p x
    · rw [List.filter_cons_of_neg (by simp [hp]), forEach_cons, h x (by simp) hp,
        pure_bind, ih1]
    · rw [List.filter_cons_of_pos (by simp [hp]), forEach_cons, forEach_cons, ih1]

theorem mem_bind_calls {m : Prog σ α} {f : α → Prog σ β} {s : σ} {c : Call}
    (h : c ∈ (Prog.bind m f s).calls) :
    c ∈ (m s).calls ∨ ∃ a, (m s).val = .ok a ∧ c ∈ (f a (m s).state).calls := by
  cases hv : (m s).val with
  | error e =>
    rw [bind_error hv] at h
    exact Or.inl h
  | ok a =>
    rw [bind_ok hv] at h
    rcases List.mem_append.mp h with h1 | h2
    · exact Or.inl h1
    · exact Or.inr ⟨a, rfl, h2⟩

theorem mem_forEach_calls {xs : List α} {body : α → Prog σ Unit} {s : σ} {c : Call}
    (h : c ∈ (forEach xs body s).calls) :
    ∃ x ∈ xs, ∃ s1, c ∈ (body x s1).calls := by
  induction xs generalizing s with
  | nil => simp [forEach, Prog.pure] at h
  | cons x xs ih =>
    rw [forEach_cons] at h
    rcases mem_bind_calls h with h1 | ⟨_, _, h2⟩
    · exact ⟨x, by simp, s, h1⟩
    · obtain ⟨y, hy, s1, hc⟩ := ih h2
      exact ⟨y, List.mem_cons_of_mem _ hy, s1, hc⟩

theorem callOrReturn_ok {call : σ → Except Error α × σ} {log : Option Error → Call}
    {s s1 : σ} {a : α} (h : call s = (.ok a, s1)) :
    callOrReturn call log s = ⟨.ok a, [log none], s1⟩ := by
  simp [callOrReturn, h]

theorem callOrReturn_error {call : σ → Except Error α × σ} {log : Option Error → Call}
    {s s1 : σ} {e : Error} (h : call s = (.error e, s1)) :
    callOrReturn call log s = ⟨.error e, [log (some e)], s1⟩ := by
  simp [callOrReturn, h]

theorem mem_callOrReturn_calls {call : σ → Except Error α × σ}
    {log : Option Error → Call} {s : σ} {c : Call}
    (h : c ∈ (callOrReturn call log s).calls) : ∃ e, c = log e := by
  rcases hc : call s with ⟨v, s1⟩
  cases v with
  | error e =>
    rw [callOrReturn_error hc] at h
    exact ⟨some e, by simpa using h⟩
  | ok a =>
    rw [callOrReturn_ok hc] at h
    exact ⟨none, by simpa using h⟩

end ProgLemmas

/-! ## Non-root modules -/

/-- Claim C4.  When `GetModulePath` succeeds with a path that is not the root,
`Check` returns `nil`, and `GetModulePath` is the only call it makes: there is
no `GetModuleContent`, `EvaluateExpr`, `GetResourceContent` or `EmitIssue`
call, hence no finding, whatever the host would have answered. -/
theorem check_non_root_skips {σ : Type} (r : Runner σ) (s s1 : σ) (path : Path)
    (hpath : r.GetModulePath s = (.ok path, s1)) (hroot : path.IsRoot = false) :
    Check r s = ⟨.ok (), [Call.GetModulePath none], s1⟩ ∧
      emitted (Check r s).calls = [] := by
  have h : Check r s = ⟨.ok (), [Call.GetModulePath none], s1⟩ := by
    unfold Check
    rw [bind_ok (a := path) (by rw [callOrReturn_ok hpath])]
    simp [callOrReturn_ok hpath, hroot, Prog.pure]
  rw [h]
  exact ⟨rfl, rfl⟩

/-- Claim C4, at the child module `module.network` of a document that would
give a finding in the root module. -/
theorem check_non_root_skips_witness :
    Check (docRunner ["network"] [⟨("sg", "sg"), exampleWeb.Body⟩] evalUnknown 5) 0 =
        ⟨.ok (), [Call.GetModulePath none], 0⟩ ∧
      emitted (Check (docRunner ["network"] [⟨("sg", "sg"), exampleWeb.Body⟩]
        evalUnknown 5) 0).calls = [] :=
  check_non_root_skips _ 0 0 ["network"] rfl rfl

/-! ## Fail-fast error propagation -/

section FailFastLemmas

variable {σ α β : Type}

theorem failFast_pure (a : α) (s : σ) : FailFast (Prog.pure a s) := by
  constructor
  · intro _ _ c hc
    simp [Prog.pure] at hc
  · intro e he
    simp [Prog.pure] at he

theorem failFast_callOrReturn (call : σ → Except Error α × σ) (log : Option Error → Call)
    (hlog : ∀ e, Call.isEvaluateExpr (log e) = false ∧ Call.err (log e) = e) (s : σ) :
    FailFast (callOrReturn call log s) := by
  rcases hc : call s with ⟨v, s1⟩
  cases v with
  | error e =>
    rw [callOrReturn_error hc]
    constructor
    · intro a ha
      simp at ha
    · intro e1 he1
      simp only [Except.error.injEq] at he1
      subst he1
      exact ⟨[], log (some e), rfl, by simp, (hlog _).1, (hlog _).2⟩
  | ok a =>
    rw [callOrReturn_ok hc]
    constructor
    · intro _ _ c hc1
      simp only [List.mem_singleton] at hc1
      subst hc1
      simp [Call.failed, (hlog none).2]
    · intro e he
      simp at he

theorem failFast_emitIssue (r : Runner σ) (i : Issue) (s : σ) :
    FailFast (emitIssue r i s) := by
  unfold emitIssue
  rcases hc : r.EmitIssue i.message i.range s with ⟨v, s1⟩
  cases v with
  | none =>
    constructor
    · intro _ _ c hc1
      simp only [List.mem_singleton] at hc1
      subst hc1
      rfl
    · intro e he
      simp at he
  | some e =>
    constructor
    · intro a ha
      simp at ha
    · intro e1 he1
      simp only [Except.error.injEq] at he1
      subst he1
      exact ⟨[], Call.EmitIssue i (some e), rfl, by simp, rfl, rfl⟩

theorem evalDependsOn_val (r : Runner σ) (expr : Expression) (s : σ) :
    ∃ l, (evalDependsOn r expr s).val = .ok l := by
  unfold evalDependsOn
  rcases hc : r.EvaluateExpr expr s with ⟨v, s1⟩
  cases v with
  | error e => exact ⟨_, rfl⟩
  | ok l => exact ⟨_, rfl⟩

theorem evalDependsOn_calls (r : Runner σ) (expr : Expression) (s : σ) :
    ∃ e, (evalDependsOn r expr s).calls = [Call.EvaluateExpr expr e] := by
  unfold evalDependsOn
  rcases hc : r.EvaluateExpr expr s with ⟨v, s1⟩
  cases v with
  | error e => exact ⟨_, rfl⟩
  | ok l => exact ⟨_, rfl⟩

theorem failFast_evalDependsOn (r : Runner σ) (expr : Expression) (s : σ) :
    FailFast (evalDependsOn r expr s) := by
  obtain ⟨l, hl⟩ := evalDependsOn_val r expr s
  obtain ⟨e, he⟩ := evalDependsOn_calls r expr s
  constructor
  · intro _ _ c hc
    rw [he, List.mem_singleton] at hc
    subst hc
    rfl
  · intro e1 he1
    rw [hl] at he1
    simp at he1

theorem failFast_bind {m : Prog σ α} {f : α → Prog σ β}
    (hm : ∀ s, FailFast (m s)) (hf : ∀ a s, FailFast (f a s)) (s : σ) :
    FailFast (Prog.bind m f s) := by
  cases hv : (m s).val with
  | error e =>
    rw [bind_error hv]
    constructor
    · intro a ha
      simp at ha
    · intro e1 he1
      simp only [Except.error.injEq] at he1
      subst he1
      exact (hm s).2 e hv
  | ok a =>
    rw [bind_ok hv]
    have h1 := (hm s).1 a hv
    have h2 := hf a (m s).state
    constructor
    · intro b hb c hc
      rcases List.mem_append.mp hc with hc1 | hc2
      · exact h1 c hc1
      · exact h2.1 b hb c hc2
    · intro e he
      obtain ⟨pre, c, hcalls, hpre, hc⟩ := h2.2 e he
      refine ⟨(m s).calls ++ pre, c, ?_, ?_, hc⟩
      · simp only [hcalls, List.append_assoc]
      · intro d hd
        rcases List.mem_append.mp hd with hd1 | hd2
        · exact h1 d hd1
        · exact hpre d hd2

theorem failFast_forEach (xs : List α) (body : α → Prog σ Unit)
    (hbody : ∀ x s, FailFast (body x s)) (s : σ) : FailFast (forEach xs body s) := by
  induction xs generalizing s with
  | nil => exact failFast_pure () s
  | cons x xs ih =>
    rw [forEach_cons]
    exact failFast_bind (hbody x) (fun _ s1 => ih s1) s

theorem failFast_matchTargets (r : Runner σ) (dependsOn : List String) (rng : Range)
    (attrName : String) (refs : List String) (s : σ) :
    FailFast (matchTargets r dependsOn rng attrName refs s) := by
  unfold matchTargets
  apply failFast_forEach
  intro target s1
  apply failFast_forEach
  intro ref s2
  by_cases h : ref = target
  · simp only [h, if_true]
    exact failFast_emitIssue r _ s2
  · simp only [h, if_false]
    exact failFast_pure () s2

theorem failFast_scanAttributes (r : Runner σ) (dependsOn : List String) (rng : Range)
    (attrs : List (String × Attribute)) (s : σ) :
    FailFast (scanAttributes r dependsOn rng attrs s) := by
  unfold scanAttributes
  apply failFast_forEach
  intro entry s1
  by_cases h : entry.1 = "depends_on"
  · simp only [h, if_true]
    exact failFast_pure () s1
  · simp only [h, if_false]
    exact failFast_matchTargets r _ _ _ _ s1

theorem failFast_scanBlocks (r : Runner σ) (resource : Block) (dependsOn : List String)
    (rng : Range) (blocks : List Block) (s : σ) :
    FailFast (scanBlocks r resource dependsOn rng blocks s) := by
  unfold scanBlocks
  apply failFast_forEach
  intro res s1
  by_cases h : res.Labels.1 = resource.Labels.2
  · simp only [ne_eq, h, not_true_eq_false, if_false]
    exact failFast_scanAttributes r _ _ _ s1
  · simp only [ne_eq, h, not_false_eq_true, if_true]
    exact failFast_pure () s1

theorem failFast_crossReference (r : Runner σ) (resource : Block) (rng : Range)
    (dependsOn : List String) (s : σ) :
    FailFast (crossReference r resource rng dependsOn s) := by
  unfold crossReference
  by_cases h : dependsOn.length = 0
  · simp only [h, if_true]
    exact failFast_pure () s
  · simp only [h, if_false]
    exact failFast_bind
      (failFast_callOrReturn (r.GetResourceContent resource.Labels.1)
        (Call.GetResourceContent resource.Labels.1) (fun _ => ⟨rfl, rfl⟩))
      (fun fullBody s1 => failFast_scanBlocks r _ _ _ _ s1) s

theorem failFast_checkResource (r : Runner σ) (resource : Block) (s : σ) :
    FailFast (checkResource r resource s) := by
  unfold checkResource
  cases resource.Body.Attributes.lookup "depends_on" with
  | none => exact failFast_pure () s
  | some d =>
    exact failFast_bind (failFast_evalDependsOn r d.Expr)
      (fun l s1 => failFast_crossReference r _ _ l s1) s

theorem failFast_check (r : Runner σ) (s : σ) : FailFast (Check r s) := by
  unfold Check
  apply failFast_bind
    (failFast_callOrReturn r.GetModulePath Call.GetModulePath (fun _ => ⟨rfl, rfl⟩))
  intro path s1
  cases hr : Path.IsRoot path
  · simp only [Bool.not_false, if_true]
    exact failFast_pure () s1
  · simp only [Bool.not_true, Bool.false_eq_true, if_false]
    apply failFast_bind
      (failFast_callOrReturn r.GetModuleContent Call.GetModuleContent (fun _ => ⟨rfl, rfl⟩))
    intro body s2
    exact failFast_forEach _ _ (failFast_checkResource r) s2

theorem last_of_failed {pre post pre1 : List Call} {c c1 : Call}
    (h : pre ++ c :: post = pre1 ++ [c1]) (hc : Call.failed c = true)
    (hpre : ∀ d ∈ pre1, Call.failed d = false) : post = [] ∧ c = c1 := by
  rcases List.eq_nil_or_concat post with hp | ⟨post1, l, hp⟩
  · subst hp
    have := List.append_inj' h rfl
    exact ⟨rfl, by simpa using this.2⟩
  · subst hp
    have h1 : (pre ++ c :: post1) ++ [l] = pre1 ++ [c1] := by simpa using h
    have h2 := (List.append_inj' h1 rfl).1
    have hmem : c ∈ pre1 := by rw [← h2]; simp
    rw [hpre c hmem] at hc
    cases hc

end FailFastLemmas

/-- Claim C8.  In the log of `Check`, a call other than `EvaluateExpr` (so, in
particular, a `GetResourceContent` or an `EmitIssue` call) that returned an
error is the last call made, and `Check` returns exactly that error; and
`Check` returns `nil` exactly when no `GetModulePath`, `GetModuleContent`,
`GetResourceContent` or `EmitIssue` call it made returned an error. -/
theorem check_fail_fast {σ : Type} (r : Runner σ) (s : σ) :
    (∀ pre c post e, (Check r s).calls = pre ++ c :: post →
      Call.isEvaluateExpr c = false → Call.err c = some e →
        post = [] ∧ (Check r s).val = .error e) ∧
    ((Check r s).val = .ok () ↔
      ∀ c ∈ (Check r s).calls, Call.isEvaluateExpr c = false → Call.err c = none) := by
  have hff := failFast_check r s
  constructor
  · intro pre c post e hcalls hne herr
    have hfailed : Call.failed c = true := by simp [Call.failed, hne, herr]
    cases hv : (Check r s).val with
    | ok a =>
      have := hff.1 a hv c (by rw [hcalls]; simp)
      rw [this] at hfailed
      cases hfailed
    | error e1 =>
      obtain ⟨pre1, c1, hc1, hpre1, _, herr1⟩ := hff.2 e1 hv
      rw [hcalls] at hc1
      obtain ⟨hpost, hcc⟩ := last_of_failed hc1 hfailed hpre1
      subst hcc
      rw [herr] at herr1
      simp only [Option.some.injEq] at herr1
      subst herr1
      exact ⟨hpost, rfl⟩
  · constructor
    · intro hv c hc hne
      have := hff.1 () hv c hc
      simp only [Call.failed, hne, Bool.not_false, Bool.true_and] at this
      cases h : Call.err c with
      | none => rfl
      | some e => simp [h] at this
    · intro h
      cases hv : (Check r s).val with
      | ok a => rfl
      | error e =>
        obtain ⟨pre, c, hc, _, hne, herr⟩ := hff.2 e hv
        have := h c (by rw [hc]; simp) hne
        rw [this] at herr
        cases herr

/-- Claim C8 at a run where the second `EmitIssue` call fails: it is the last
call of the log and its error is what `Check` returns. -/
theorem check_fail_fast_witness :
    ([] : List Call) = [] ∧
      (Check (docRunner [] [exampleTwice] evalUnknown 1) 0).val = .error "emit failed" :=
  (check_fail_fast (docRunner [] [exampleTwice] evalUnknown 1) 0).1
    [Call.GetModulePath none, Call.GetModuleContent none,
      Call.EvaluateExpr ⟨[ref2 "aws_security_group" "sg"]⟩ (some "unknown value"),
      Call.GetResourceContent "aws_instance" none,
      Call.EmitIssue ⟨"aws_security_group.sg", "vpc_security_group_ids", lineRange 2⟩ none]
    (Call.EmitIssue ⟨"aws_security_group.sg", "vpc_security_group_ids", lineRange 2⟩
      (some "emit failed"))
    [] "emit failed" (by decide) rfl rfl

/-! ## The reference extractor -/

/-- Claim C3, refuted as stated: on the expression `aws_instance[0]` (one
traversal of two segments, a root and an index) the specification's reference
definition yields one reference, and `extractResourceReferences` yields none. -/
theorem extract_differs_from_spec_on_index :
    extractResourceReferences ⟨[indexedTraversal]⟩ = [] ∧
      specExtractReferences ⟨[indexedTraversal]⟩ = ["aws_instance.0"] ∧
      extractResourceReferences ⟨[indexedTraversal]⟩ ≠
        specExtractReferences ⟨[indexedTraversal]⟩ := by
  decide

/-- Claim C3, amended.  On every expression in which each traversal of at
least two segments starts with two root or attribute segments,
`extractResourceReferences` equals the reference definition of the
specification: in traversal order, the join of the first two segments of each
traversal that has two, and nothing for shorter traversals. -/
theorem extract_refines_spec (e : Expression)
    (h : ∀ t ∈ e.Variables, firstTwoNamed t = true) :
    extractResourceReferences e = specExtractReferences e :=
  extract_eq_spec_of_firstTwoNamed e h

/-- Claim C3, amended, on `[aws_security_group.sg.id, var.list[0], name]`. -/
theorem extract_refines_spec_witness :
    extractResourceReferences
        ⟨[ref3 "aws_security_group" "sg" "id",
          [.TraverseRoot "var", .TraverseAttr "list", .TraverseIndex "0"],
          [.TraverseRoot "name"]]⟩ =
      specExtractReferences
        ⟨[ref3 "aws_security_group" "sg" "id",
          [.TraverseRoot "var", .TraverseAttr "list", .TraverseIndex "0"],
          [.TraverseRoot "name"]]⟩ :=
  extract_refines_spec _ (by decide)

/-- Claim C10.  `extractResourceReferences` is a total function, and for every
expression its result is, in traversal order and with duplicates kept, one
string per traversal that has at least two segments and at least two root or
attribute segments: the names of the first two such segments joined by a dot,
index segments being skipped.  Hence no traversal gives the empty list, the
result is never longer than the list of traversals, and on traversals made
only of root and attribute segments it is the join of the first two
segments. -/
theorem extract_characterisation (e : Expression) :
    extractResourceReferences e = e.Variables.filterMap namedReference ∧
    (e.Variables = [] → extractResourceReferences e = []) ∧
    (extractResourceReferences e).length ≤ e.Variables.length ∧
    ((∀ t ∈ e.Variables, ∀ x ∈ t, Traverser.isNamed x = true) →
      extractResourceReferences e = e.Variables.filterMap specReference) := by
  refine ⟨extract_eq_filterMap e, ?_, ?_, ?_⟩
  · intro h
    rw [extract_eq_filterMap, h]
    rfl
  · rw [extract_eq_filterMap]
    exact List.length_filterMap_le _ _
  · intro h
    exact extract_eq_spec_of_firstTwoNamed e
      (fun t ht => firstTwoNamed_of_all_named t (h t ht))

/-- Claim C10 on `[aws_security_group.sg.id, aws_security_group.sg.arn]`: the
duplicate is kept. -/
theorem extract_characterisation_witness :
    extractResourceReferences
        ⟨[ref3 "aws_security_group" "sg" "id", ref3 "aws_security_group" "sg" "arn"]⟩ =
      [ref3 "aws_security_group" "sg" "id", ref3 "aws_security_group" "sg" "arn"].filterMap
        specReference :=
  (extract_characterisation
    ⟨[ref3 "aws_security_group" "sg" "id", ref3 "aws_security_group" "sg" "arn"]⟩).2.2.2
    (by decide)

/-! ## The dependency list -/

/-- Claim C7.  For a resource with a `depends_on` attribute `d`: when
`EvaluateExpr` succeeds with `v`, the resource is cross-referenced with the
list `v`; when it fails, the resource is cross-referenced with
`extractResourceReferences d.Expr`, which contains `a.b` for every traversal
of the expression that starts with the root `a` and the attribute `b`; in both
cases processing goes on after the `EvaluateExpr` call, and an error returned
by `Check` is always the error of its last call, which is not an
`EvaluateExpr` call. -/
theorem dependsOn_fallback {σ : Type} (r : Runner σ) (resource : Block) (d : Attribute)
    (s : σ) (hd : resource.Body.Attributes.lookup "depends_on" = some d) :
    (∀ v s1, r.EvaluateExpr d.Expr s = (.ok v, s1) →
      checkResource r resource s =
        ⟨(crossReference r resource d.Range v s1).val,
          Call.EvaluateExpr d.Expr none :: (crossReference r resource d.Range v s1).calls,
          (crossReference r resource d.Range v s1).state⟩) ∧
    (∀ e s1, r.EvaluateExpr d.Expr s = (.error e, s1) →
      checkResource r resource s =
        ⟨(crossReference r resource d.Range (extractResourceReferences d.Expr) s1).val,
          Call.EvaluateExpr d.Expr (some e) ::
            (crossReference r resource d.Range (extractResourceReferences d.Expr) s1).calls,
          (crossReference r resource d.Range (extractResourceReferences d.Expr) s1).state⟩) ∧
    (∀ a b rest, (Traverser.TraverseRoot a :: Traverser.TraverseAttr b :: rest) ∈
        d.Expr.Variables → (a ++ "." ++ b) ∈ extractResourceReferences d.Expr) ∧
    (∀ e s0, (Check r s0).val = .error e →
      ∃ pre c, (Check r s0).calls = pre ++ [c] ∧ Call.isEvaluateExpr c = false ∧
        Call.err c = some e) := by
  refine ⟨?_, ?_, ?_, ?_⟩
  · intro v s1 hev
    have h : evalDependsOn r d.Expr s = ⟨.ok v, [Call.EvaluateExpr d.Expr none], s1⟩ := by
      simp [evalDependsOn, hev]
    unfold checkResource
    rw [hd]
    simp only
    rw [bind_ok (a := v) (by rw [h]), h]
    rfl
  · intro e s1 hev
    have h : evalDependsOn r d.Expr s =
        ⟨.ok (extractResourceReferences d.Expr), [Call.EvaluateExpr d.Expr (some e)], s1⟩ := by
      simp [evalDependsOn, hev]
    unfold checkResource
    rw [hd]
    simp only
    rw [bind_ok (a := extractResourceReferences d.Expr) (by rw [h]), h]
    rfl
  · intro a b rest h
    exact mem_extract_of_root_attr d.Expr a b rest h
  · intro e s0 hv
    obtain ⟨pre, c, hc, _, hne, herr⟩ := (failFast_check r s0).2 e hv
    exact ⟨pre, c, hc, hne, herr⟩

/-- Claim C7 on a resource whose `depends_on` cannot be evaluated: the list
is recovered from the expression and the run goes on to the re-fetch. -/
theorem dependsOn_fallback_witness :
    checkResource (docRunner [] [exampleTwice] evalUnknown 5) exampleTwice 0 =
      ⟨(crossReference (docRunner [] [exampleTwice] evalUnknown 5) exampleTwice (lineRange 2)
          (extractResourceReferences ⟨[ref2 "aws_security_group" "sg"]⟩) 0).val,
        Call.EvaluateExpr ⟨[ref2 "aws_security_group" "sg"]⟩ (some "unknown value") ::
          (crossReference (docRunner [] [exampleTwice] evalUnknown 5) exampleTwice (lineRange 2)
            (extractResourceReferences ⟨[ref2 "aws_security_group" "sg"]⟩) 0).calls,
        (crossReference (docRunner [] [exampleTwice] evalUnknown 5) exampleTwice (lineRange 2)
          (extractResourceReferences ⟨[ref2 "aws_security_group" "sg"]⟩) 0).state⟩ :=
  (dependsOn_fallback (docRunner [] [exampleTwice] evalUnknown 5) exampleTwice
    ⟨⟨[ref2 "aws_security_group" "sg"]⟩, lineRange 2⟩ 0 rfl).2.1 "unknown value" 0 rfl

/-! ## Which blocks are scanned -/

section ScanLemmas

variable {σ α : Type}

theorem callOrReturn_val_ok {call : σ → Except Error α × σ} {log : Option Error → Call}
    {s : σ} {a : α} (h : (callOrReturn call log s).val = .ok a) :
    ∃ s1, call s = (.ok a, s1) := by
  rcases hc : call s with ⟨v, s1⟩
  cases v with
  | error e =>
    rw [callOrReturn_error hc] at h
    simp at h
  | ok b =>
    rw [callOrReturn_ok hc] at h
    simp only [Except.ok.injEq] at h
    subst h
    exact ⟨s1, rfl⟩

theorem mem_crossReference_calls {r : Runner σ} {resource : Block} {rng : Range}
    {dependsOn : List String} {s : σ} {c : Call}
    (h : c ∈ (crossReference r resource rng dependsOn s).calls) :
    (∃ e, c = Call.GetResourceContent resource.Labels.1 e) ∨
    ∃ fullBody s1 s2, r.GetResourceContent resource.Labels.1 s = (.ok fullBody, s1) ∧
      c ∈ (scanBlocks r resource dependsOn rng fullBody.Blocks s2).calls := by
  unfold crossReference at h
  by_cases hl : dependsOn.length = 0
  · simp [hl, Prog.pure] at h
  · simp only [hl, if_false] at h
    rcases mem_bind_calls h with h1 | ⟨fullBody, hv, h2⟩
    · exact Or.inl (mem_callOrReturn_calls h1)
    · obtain ⟨s1, hs1⟩ := callOrReturn_val_ok hv
      exact Or.inr ⟨fullBody, s1, _, hs1, h2⟩

theorem mem_checkResource_calls {r : Runner σ} {resource : Block} {s : σ} {c : Call}
    (h : c ∈ (checkResource r resource s).calls) :
    ∃ d, resource.Body.Attributes.lookup "depends_on" = some d ∧
      ((∃ e, c = Call.EvaluateExpr d.Expr e) ∨
        ∃ dependsOn s1, c ∈ (crossReference r resource d.Range dependsOn s1).calls) := by
  unfold checkResource at h
  cases hd : resource.Body.Attributes.lookup "depends_on" with
  | none =>
    rw [hd] at h
    simp [Prog.pure] at h
  | some d =>
    rw [hd] at h
    simp only at h
    refine ⟨d, rfl, ?_⟩
    rcases mem_bind_calls h with h1 | ⟨l, _, h2⟩
    · obtain ⟨e, he⟩ := evalDependsOn_calls r d.Expr s
      rw [he, List.mem_singleton] at h1
      exact Or.inl ⟨e, h1⟩
    · exact Or.inr ⟨l, _, h2⟩

theorem mem_scanBlocks_calls {r : Runner σ} {resource : Block} {dependsOn : List String}
    {rng : Range} {blocks : List Block} {s : σ} {c : Call}
    (h : c ∈ (scanBlocks r resource dependsOn rng blocks s).calls) :
    ∃ res ∈ blocks, res.Labels.1 = resource.Labels.2 ∧
      ∃ s1, c ∈ (scanAttributes r dependsOn rng res.Body.Attributes s1).calls := by
  unfold scanBlocks at h
  obtain ⟨res, hres, s1, hc⟩ := mem_forEach_calls h
  by_cases hl : res.Labels.1 = resource.Labels.2
  · simp only [ne_eq, hl, not_true_eq_false, if_false] at hc
    exact ⟨res, hres, hl, s1, hc⟩
  · simp [hl, Prog.pure] at hc

end ScanLemmas

/-- Claim C9.  Assume that `GetResourceContent K` only returns blocks whose
first label is `K`.  Then a resource with labels `(K, N)` whose processing
emits an issue has `K = N`, because line 96 compares the first label of the
re-fetched block with the second label of the resource; and when `K = N` the
label test lets every returned block through, so the attributes of every
resource block of kind `K` are scanned, whatever its name. -/
theorem finding_only_if_kind_eq_name {σ : Type} (r : Runner σ)
    (hkind : ∀ K s body s1, r.GetResourceContent K s = (.ok body, s1) →
      ∀ b ∈ body.Blocks, b.Labels.1 = K) :
    (∀ resource s c, c ∈ (checkResource r resource s).calls → Call.isEmitIssue c = true →
      resource.Labels.1 = resource.Labels.2) ∧
    (∀ resource dependsOn rng s body s1,
      r.GetResourceContent resource.Labels.1 s = (.ok body, s1) →
      resource.Labels.1 = resource.Labels.2 →
      scanBlocks r resource dependsOn rng body.Blocks =
        forEach body.Blocks fun res => scanAttributes r dependsOn rng res.Body.Attributes) := by
  constructor
  · intro resource s c hc hemit
    obtain ⟨d, _, h1 | ⟨l, s1, h2⟩⟩ := mem_checkResource_calls hc
    · obtain ⟨e, he⟩ := h1
      subst he
      cases hemit
    · rcases mem_crossReference_calls h2 with ⟨e, he⟩ | ⟨fullBody, s2, s3, hget, h3⟩
      · subst he
        cases hemit
      · obtain ⟨res, hres, hlabel, _⟩ := mem_scanBlocks_calls h3
        rw [← hlabel]
        exact (hkind _ _ _ _ hget res hres).symm
  · intro resource dependsOn rng s body s1 hget hKN
    unfold scanBlocks
    apply forEach_congr
    intro res hres
    have : res.Labels.1 = resource.Labels.2 := by
      rw [← hKN]
      exact hkind _ _ _ _ hget res hres
    simp [this]

theorem docRunner_kind (path : Path) (doc : List Block)
    (eval : Expression → Except Error (List String)) (capacity : Nat) :
    ∀ K s body s1, (docRunner path doc eval capacity).GetResourceContent K s = (.ok body, s1) →
      ∀ b ∈ body.Blocks, b.Labels.1 = K := by
  intro K s body s1 h b hb
  simp only [docRunner, Prod.mk.injEq, Except.ok.injEq] at h
  rw [← h.1] at hb
  simpa using (List.mem_filter.mp hb).2

/-- Claim C9 on a document with `aws_instance.aws_instance` and
`aws_instance.web`: processing the first scans the attributes of both. -/
theorem finding_only_if_kind_eq_name_witness :
    scanBlocks (docRunner [] [exampleBare, exampleOther] evalUnknown 5) exampleBare
        ["aws_security_group.sg"] (lineRange 2) [exampleBare, exampleOther] =
      forEach [exampleBare, exampleOther] fun res =>
        scanAttributes (docRunner [] [exampleBare, exampleOther] evalUnknown 5)
          ["aws_security_group.sg"] (lineRange 2) res.Body.Attributes :=
  (finding_only_if_kind_eq_name (docRunner [] [exampleBare, exampleOther] evalUnknown 5)
    (docRunner_kind _ _ _ _)).2 exampleBare ["aws_security_group.sg"] (lineRange 2) 0
    ⟨[exampleBare, exampleOther]⟩ 0 rfl rfl

/-! ## Where a finding comes from -/

section EmitLemmas

variable {σ α : Type}

theorem mem_emitIssue_calls {r : Runner σ} {i : Issue} {s : σ} {c : Call}
    (h : c ∈ (emitIssue r i s).calls) : ∃ e, c = Call.EmitIssue i e := by
  unfold emitIssue at h
  rcases hc : r.EmitIssue i.message i.range s with ⟨v, s1⟩
  rw [hc] at h
  cases v with
  | none => exact ⟨none, by simpa using h⟩
  | some e => exact ⟨some e, by simpa using h⟩

theorem mem_scanAttributes_calls {r : Runner σ} {dependsOn : List String} {rng : Range}
    {attrs : List (String × Attribute)} {s : σ} {c : Call}
    (h : c ∈ (scanAttributes r dependsOn rng attrs s).calls) :
    ∃ i e, c = Call.EmitIssue i e ∧ i.range = rng ∧ i.dependsOnTarget ∈ dependsOn ∧
      i.attrName ≠ "depends_on" ∧
      ∃ a, (i.attrName, a) ∈ attrs ∧ i.dependsOnTarget ∈ extractResourceReferences a.Expr := by
  unfold scanAttributes at h
  obtain ⟨entry, hentry, s1, h1⟩ := mem_forEach_calls h
  by_cases hname : entry.1 = "depends_on"
  · simp [hname, Prog.pure] at h1
  · simp only [hname, if_false] at h1
    unfold matchTargets at h1
    obtain ⟨target, htarget, s2, h2⟩ := mem_forEach_calls h1
    obtain ⟨ref, href, s3, h3⟩ := mem_forEach_calls h2
    by_cases heq : ref = target
    · simp only [heq, if_true] at h3
      obtain ⟨e, he⟩ := mem_emitIssue_calls h3
      subst heq
      exact ⟨_, e, he, rfl, htarget, hname, entry.2, hentry, href⟩
    · simp [heq, Prog.pure] at h3

theorem mem_check_calls {r : Runner σ} {s : σ} {c : Call} (h : c ∈ (Check r s).calls)
    (hemit : Call.isEmitIssue c = true) :
    ∃ resource s1, c ∈ (checkResource r resource s1).calls := by
  unfold Check at h
  rcases mem_bind_calls h with h1 | ⟨path, _, h2⟩
  · obtain ⟨e, he⟩ := mem_callOrReturn_calls h1
    subst he
    cases hemit
  · cases hr : Path.IsRoot path
    · simp [hr, Prog.pure] at h2
    · simp only [hr, Bool.not_true, Bool.false_eq_true, if_false] at h2
      rcases mem_bind_calls h2 with h3 | ⟨body, _, h4⟩
      · obtain ⟨e, he⟩ := mem_callOrReturn_calls h3
        subst he
        cases hemit
      · obtain ⟨resource, _, s1, h5⟩ := mem_forEach_calls h4
        exact ⟨resource, s1, h5⟩

theorem mem_checkResource_emit {r : Runner σ} {resource : Block} {s : σ} {c : Call}
    (h : c ∈ (checkResource r resource s).calls) (hemit : Call.isEmitIssue c = true) :
    ∃ i e, c = Call.EmitIssue i e ∧ i.attrName ≠ "depends_on" ∧
      ∃ s0 body s1 res a, r.GetResourceContent resource.Labels.1 s0 = (.ok body, s1) ∧
        res ∈ body.Blocks ∧ (i.attrName, a) ∈ res.Body.Attributes ∧
        i.dependsOnTarget ∈ extractResourceReferences a.Expr := by
  obtain ⟨d, _, h1 | ⟨l, s1, h2⟩⟩ := mem_checkResource_calls h
  · obtain ⟨e, he⟩ := h1
    subst he
    cases hemit
  · rcases mem_crossReference_calls h2 with ⟨e, he⟩ | ⟨fullBody, s2, s3, hget, h3⟩
    · subst he
      cases hemit
    · obtain ⟨res, hres, _, s4, h4⟩ := mem_scanBlocks_calls h3
      obtain ⟨i, e, hc, _, _, hname, a, ha, href⟩ := mem_scanAttributes_calls h4
      exact ⟨i, e, hc, hname, _, fullBody, s2, res, a, hget, hres, ha, href⟩

theorem mem_check_emit {r : Runner σ} {s : σ} {c : Call} (h : c ∈ (Check r s).calls)
    (hemit : Call.isEmitIssue c = true) :
    ∃ i e, c = Call.EmitIssue i e ∧ i.attrName ≠ "depends_on" ∧
      ∃ K s0 body s1 res a, r.GetResourceContent K s0 = (.ok body, s1) ∧ res ∈ body.Blocks ∧
        (i.attrName, a) ∈ res.Body.Attributes ∧
        i.dependsOnTarget ∈ extractResourceReferences a.Expr := by
  obtain ⟨resource, s1, h1⟩ := mem_check_calls h hemit
  obtain ⟨i, e, hc, hname, s0, body, s2, res, a, hrest⟩ := mem_checkResource_emit h1 hemit
  exact ⟨i, e, hc, hname, _, s0, body, s2, res, a, hrest⟩

/-- The message of the finding the specification expects for its example. -/
theorem message_format :
    Issue.message ⟨"aws_security_group.sg", "vpc_security_group_ids", lineRange 2⟩ =
      "depends_on is redundant because \"aws_security_group.sg\" is already referenced in \"vpc_security_group_ids\" attribute" := by
  decide

theorem emitted_eq_nil {cs : List Call} (h : ∀ c ∈ cs, Call.isEmitIssue c = false) :
    emitted cs = [] := by
  induction cs with
  | nil => rfl
  | cons c cs ih =>
    have hc := h c (by simp)
    have ih1 := ih (fun d hd => h d (List.mem_cons_of_mem _ hd))
    cases c <;> simp_all [emitted, Call.isEmitIssue, Call.issue?, List.filterMap_cons]

theorem forEach_map {β : Type} (g : α → β) (xs : List α) (body : β → Prog σ Unit) :
    forEach (xs.map g) body = forEach xs (fun x => body (g x)) := by
  induction xs with
  | nil => rfl
  | cons x xs ih => rw [List.map_cons, forEach_cons, forEach_cons, ih]

theorem scanAttributes_filter (r : Runner σ) (dependsOn : List String) (rng : Range)
    (attrs : List (String × Attribute)) :
    scanAttributes r dependsOn rng (attrs.filter fun entry => !decide (entry.1 = "depends_on")) =
      scanAttributes r dependsOn rng attrs := by
  unfold scanAttributes
  apply forEach_filter
  intro entry _ hentry
  have : entry.1 = "depends_on" := by simpa using hentry
  simp [this]

theorem scanBlocks_strip (r : Runner σ) (resource : Block) (dependsOn : List String)
    (rng : Range) (body : BodyContent) :
    scanBlocks (withoutDependsOn r) resource dependsOn rng (stripDependsOn body).Blocks =
      scanBlocks r resource dependsOn rng body.Blocks := by
  unfold scanBlocks stripDependsOn
  rw [forEach_map]
  apply forEach_congr
  intro res _
  by_cases hl : res.Labels.1 = resource.Labels.2
  · simp only [ne_eq, hl, not_true_eq_false, if_false]
    exact scanAttributes_filter r dependsOn rng res.Body.Attributes
  · simp [hl]

theorem crossReference_strip (r : Runner σ) (resource : Block) (rng : Range)
    (dependsOn : List String) :
    crossReference (withoutDependsOn r) resource rng dependsOn =
      crossReference r resource rng dependsOn := by
  funext s
  unfold crossReference
  by_cases hl : dependsOn.length = 0
  · simp [hl, Prog.pure]
  · simp only [hl, if_false]
    rcases hc : r.GetResourceContent resource.Labels.1 s with ⟨v, s1⟩
    have hw : (withoutDependsOn r).GetResourceContent resource.Labels.1 s =
        match v with
        | .ok body => (.ok (stripDependsOn body), s1)
        | .error e => (.error e, s1) := by
      simp only [withoutDependsOn, hc]
      cases v <;> rfl
    cases v with
    | error e =>
      rw [bind_error (e := e) (by rw [callOrReturn_error hw]),
        bind_error (e := e) (by rw [callOrReturn_error hc]),
        callOrReturn_error hw, callOrReturn_error hc]
    | ok body =>
      rw [bind_ok (a := stripDependsOn body) (by rw [callOrReturn_ok hw]),
        bind_ok (a := body) (by rw [callOrReturn_ok hc]),
        callOrReturn_ok hw, callOrReturn_ok hc]
      simp only [scanBlocks_strip]

theorem check_strip (r : Runner σ) : Check (withoutDependsOn r) = Check r := by
  have hres : checkResource (withoutDependsOn r) = checkResource r := by
    funext resource
    unfold checkResource
    cases resource.Body.Attributes.lookup "depends_on" with
    | none => rfl
    | some d =>
      simp only
      have : crossReference (withoutDependsOn r) resource d.Range =
          crossReference r resource d.Range := by
        funext l
        exact crossReference_strip r resource d.Range l
      rw [this]
      rfl
  unfold Check
  rw [hres]
  rfl

end EmitLemmas

/-- The guard of lines 101-104.  No issue emitted by `Check` names `depends_on`
as the matching attribute; `Check` behaves identically when the host deletes the `depends_on`
entry from every re-fetched attribute map; scanning a block whose only
attribute is `depends_on` makes no call at all, whatever the dependency list
and the expression of `depends_on`; and processing a resource emits nothing
when the blocks re-fetched for it carry no attribute but `depends_on`. -/
theorem depends_on_never_scanned {σ : Type} (r : Runner σ) :
    (∀ s i e, Call.EmitIssue i e ∈ (Check r s).calls → i.attrName ≠ "depends_on") ∧
    Check (withoutDependsOn r) = Check r ∧
    (∀ dependsOn rng attrs s, (∀ entry ∈ attrs, entry.1 = "depends_on") →
      (scanAttributes r dependsOn rng attrs s).calls = []) ∧
    (∀ resource,
      (∀ s body s1, r.GetResourceContent resource.Labels.1 s = (.ok body, s1) →
        ∀ b ∈ body.Blocks, ∀ entry ∈ b.Body.Attributes, entry.1 = "depends_on") →
      ∀ s, emitted (checkResource r resource s).calls = []) := by
  refine ⟨?_, check_strip r, ?_, ?_⟩
  · intro s i e h
    obtain ⟨j, e1, hc, hname, _⟩ := mem_check_emit h rfl
    cases hc
    exact hname
  · intro dependsOn rng attrs s hall
    apply List.eq_nil_iff_forall_not_mem.mpr
    intro c hc
    obtain ⟨i, _, _, _, _, hname, a, ha, _⟩ := mem_scanAttributes_calls hc
    exact hname (hall _ ha)
  · intro resource hall s
    apply emitted_eq_nil
    intro c hc
    cases hemit : Call.isEmitIssue c with
    | false => rfl
    | true =>
      obtain ⟨i, _, _, hname, s0, body, s1, res, a, hget, hres, ha, _⟩ :=
        mem_checkResource_emit hc hemit
      exact absurd (hall s0 body s1 hget res hres _ ha) hname

/-- The guard of lines 101-104 on a block whose only attribute is
`depends_on = [aws_security_group.sg]`. -/
theorem depends_on_never_scanned_witness :
    (scanAttributes (docRunner [] [exampleBare] evalUnknown 5) ["aws_security_group.sg"]
      (lineRange 2) exampleBare.Body.Attributes 0).calls = [] :=
  (depends_on_never_scanned (docRunner [] [exampleBare] evalUnknown 5)).2.2.1
    ["aws_security_group.sg"] (lineRange 2) exampleBare.Body.Attributes 0 (by decide)

/-! ## Counting findings -/

section CountLemmas

variable {σ α : Type}

end CountLemmas

/-- Claim C1 at the example of the specification (`aws_instance.web`, with
`depends_on = [aws_security_group.sg]` and
`vpc_security_group_ids = [aws_security_group.sg.id]`, in the root module):
`Check` returns `nil` and emits no finding, whether `depends_on` is decoded by
the host or recovered by the fallback, because the re-fetched block's kind
`aws_instance` is compared with the name `web`. -/
theorem spec_example_emits_nothing :
    (Check (docRunner [] [exampleWeb] evalUnknown 5) 0).val = .ok () ∧
      (Check (docRunner [] [exampleWeb] evalUnknown 5) 0).calls =
        [Call.GetModulePath none, Call.GetModuleContent none,
          Call.EvaluateExpr ⟨[ref2 "aws_security_group" "sg"]⟩ (some "unknown value"),
          Call.GetResourceContent "aws_instance" none] ∧
      emitted (Check (docRunner [] [exampleWeb] evalUnknown 5) 0).calls = [] ∧
      (Check (docRunner [] [exampleWeb] evalLiteral 5) 0).val = .ok () ∧
      emitted (Check (docRunner [] [exampleWeb] evalLiteral 5) 0).calls = [] := by
  refine ⟨rfl, ?_, ?_, rfl, ?_⟩ <;> decide

/-- Claim C2 at a document with `aws_instance.aws_instance` (whose only
attribute is `depends_on = [aws_security_group.sg]`) and `aws_instance.web`
(with `vpc_security_group_ids = [aws_security_group.sg.id]` and no
`depends_on`): `Check` emits one finding, located at the `depends_on` of the
first resource and naming the attribute `vpc_security_group_ids`, which the
first resource does not have. -/
theorem finding_from_other_resource :
    emitted (Check (docRunner [] [exampleBare, exampleOther] evalUnknown 5) 0).calls =
        [⟨"aws_security_group.sg", "vpc_security_group_ids", lineRange 2⟩] ∧
      exampleBare.Body.Attributes.lookup "vpc_security_group_ids" = none ∧
      exampleOther.Body.Attributes.lookup "depends_on" = none ∧
      exampleBare.Body.Attributes.map Prod.fst = ["depends_on"] := by
  decide

/-- Claim C5 at a document with `aws_instance.aws_instance`, whose only
attribute is `depends_on = [aws_security_group.sg]`, and `aws_instance.web`,
which has no `depends_on`.  Alone in its document the first resource yields no
finding.  Next to the second one, processing it emits one finding, located at
its own `depends_on`, whether the list is decoded by the host or recovered by
the fallback: the label test of line 96 lets the block of `aws_instance.web`
through, and its attributes are scanned for the first resource. -/
theorem bare_resource_yields_finding :
    exampleBare.Body.Attributes.map Prod.fst = ["depends_on"] ∧
      emitted (Check (docRunner [] [exampleBare] evalUnknown 5) 0).calls = [] ∧
      emitted (checkResource (docRunner [] [exampleBare, exampleOther] evalUnknown 5)
          exampleBare 0).calls =
        [⟨"aws_security_group.sg", "vpc_security_group_ids", lineRange 2⟩] ∧
      emitted (checkResource (docRunner [] [exampleBare, exampleOther] evalUnknown 5)
          ⟨exampleOther.Labels, ⟨[]⟩⟩ 0).calls = [] ∧
      emitted (Check (docRunner [] [exampleBare, exampleOther] evalLiteral 5) 0).calls =
        [⟨"aws_security_group.sg", "vpc_security_group_ids", lineRange 2⟩] := by
  decide

end Rules
